import Mathlib

/-!
# Verification of the Simon game engine

Shallow embedding of the finite-state game engine in `src/simon.js`
(the `simonGame` closure), together with proofs of the specified
properties of its public operations.

Modelling choices:
* JS numbers used as state codes and button indices become `ℤ`;
  the round and press counters, which are only ever set to 0 or
  incremented, become `ℕ`; the sequence becomes `List ℤ`.
* `Math.random()` is modelled by an explicit rational argument
  `r ∈ [0,1)`; the appended signal is `⌊r * 3.99⌋` exactly as in
  `nextRound` (line 106 of the source).
* The JS out-of-bounds read `sequence[pressN - 1]` yields `undefined`,
  and `btnI != undefined` is true for every number `btnI`; this is
  modelled with `List.get?` and an `Option` match whose `none` branch
  takes the mismatch path.
-/

/-- State codes, from the `states` table of the `gameState` closure. -/
def gameState.powerOff : ℤ := 0

def gameState.powerOn : ℤ := 1

def gameState.start : ℤ := 2

def gameState.addRandom : ℤ := 3

def gameState.comDemo : ℤ := 4

def gameState.playerSequence : ℤ := 5

def gameState.mistake : ℤ := 6

def gameState.allCorrect : ℤ := 7

def gameState.win : ℤ := 8

/-- `gameState.setState(n)`: bounds-checked assignment of the state code;
out-of-range values leave the state unchanged (source lines 72-77). -/
def gameState.setState (state n : ℤ) : ℤ :=
  if 0 ≤ n ∧ n ≤ gameState.win then n else state

/-- `MAXROUND` (source line 92). -/
def MAXROUND : ℕ := 20

/-- The signal appended for random draw `r`: `Math.floor(r * 3.99)`
(source line 106), with `3.99` read as the rational `399/100`. -/
def signalOf (r : ℚ) : ℤ := (r * (399 / 100)).floor

/-- `signalOf` agrees with the mathematical floor. -/
theorem signalOf_eq_floor (r : ℚ) : signalOf r = ⌊r * (399 / 100)⌋ := by
  rw [signalOf, Rat.floor_def, Rat.floor_def']

/-- The mutable data of the `simonGame` closure (source lines 87-92):
current state code, round counter, press counter, strict flag, and the
light sequence. -/
structure Simon where
  state : ℤ
  round : ℕ
  pressN : ℕ
  strict : Bool
  sequence : List ℤ
deriving DecidableEq, Repr

/-- The engine as created at startup: `powerOff`, zero counters,
strict off, empty sequence. -/
def Simon.initial : Simon :=
  { state := gameState.powerOff, round := 0, pressN := 0,
    strict := false, sequence := [] }

/-- `gs.setState(n)` acting on the whole engine. -/
def Simon.setGS (g : Simon) (n : ℤ) : Simon :=
  { g with state := gameState.setState g.state n }

/-- `nextRound()` (source lines 99-109), with the random draw `r` made
an explicit argument. -/
def Simon.nextRound (g : Simon) (r : ℚ) : Simon :=
  let g0 := { g with pressN := 0 }
  if MAXROUND < g0.round + 1 then
    g0.setGS gameState.win
  else
    ({ g0 with round := g0.round + 1,
               sequence := g0.sequence ++ [signalOf r] }).setGS gameState.comDemo

/-- `press(btnI)` (source lines 120-140): returns the accepted flag
together with the updated engine. -/
def Simon.press (g : Simon) (btnI : ℤ) : Bool × Simon :=
  let s := g.state
  if ¬ (s = gameState.powerOn ∨ s = gameState.playerSequence) then
    (false, g)
  else if s ≠ gameState.playerSequence then
    (true, g)
  else
    let g1 := { g with pressN := g.pressN + 1 }
    match g1.sequence.get? (g1.pressN - 1) with
    | some v =>
        if btnI ≠ v then
          (true, ({ g1 with pressN := 0 }).setGS gameState.mistake)
        else if g1.pressN = g1.sequence.length then
          (true, g1.setGS gameState.allCorrect)
        else
          (true, g1)
    | none =>
        (true, ({ g1 with pressN := 0 }).setGS gameState.mistake)

/-- `reset()` (source lines 143-147). -/
def Simon.reset (g : Simon) : Simon :=
  { g with sequence := [], round := 0, pressN := 0 }

/-- `start()` (source lines 149-152): reset, then one round advance. -/
def Simon.start (g : Simon) (r : ℚ) : Simon :=
  (g.reset).nextRound r

/-- `togglePower()` (source lines 159-167). -/
def Simon.togglePower (g : Simon) : Simon :=
  if g.state = gameState.powerOff then
    (g.setGS gameState.powerOn).reset
  else
    { g.setGS gameState.powerOff with strict := false }

/-- `toggleStrict()` (source lines 190-192). -/
def Simon.toggleStrict (g : Simon) : Simon :=
  { g with strict := !g.strict }

/-- Public `setState` (exposed as `simonGame.setState`, source line 186). -/
def Simon.setState (g : Simon) (n : ℤ) : Simon :=
  g.setGS n

/-- One call to a public mutating entry point of `simonGame`; random
draws are carried as data. -/
inductive Op where
  | start (r : ℚ)
  | nextRound (r : ℚ)
  | press (btnI : ℤ)
  | togglePower
  | toggleStrict
  | setState (n : ℤ)
deriving DecidableEq, Repr

/-- Effect of one public call on the engine state. -/
def Simon.step (g : Simon) : Op → Simon
  | Op.start r => g.start r
  | Op.nextRound r => g.nextRound r
  | Op.press b => (g.press b).2
  | Op.togglePower => g.togglePower
  | Op.toggleStrict => g.toggleStrict
  | Op.setState n => g.setState n

/-- Run a finite sequence of public calls. -/
def Simon.run (g : Simon) : List Op → Simon
  | [] => g
  | op :: ops => (g.step op).run ops

/-- Iterate `nextRound` over a list of random draws. -/
def Simon.runNR (g : Simon) : List ℚ → Simon
  | [] => g
  | r :: rs => (g.nextRound r).runNR rs

/-- All engine states visited while iterating `nextRound` over a list of
random draws, the starting state included. -/
def Simon.statesNR (g : Simon) : List ℚ → List Simon
  | [] => [g]
  | r :: rs => g :: (g.nextRound r).statesNR rs

/-! ## Unfolding lemmas for the individual operations -/

/-- `nextRound` in the round-limit branch: only the press counter and the
state change. -/
theorem nextRound_high (g : Simon) (r : ℚ) (h : MAXROUND < g.round + 1) :
    g.nextRound r = { g with pressN := 0, state := gameState.win } := by
  simp [Simon.nextRound, h, Simon.setGS, gameState.setState, gameState.win]

/-- `nextRound` in the advancing branch. -/
theorem nextRound_low (g : Simon) (r : ℚ) (h : g.round + 1 ≤ MAXROUND) :
    g.nextRound r =
      { g with pressN := 0, round := g.round + 1,
               sequence := g.sequence ++ [signalOf r],
               state := gameState.comDemo } := by
  simp [Simon.nextRound, Nat.not_lt.mpr h, Simon.setGS, gameState.setState,
    gameState.comDemo, gameState.win]

/-- A press outside the `playerSequence` state never changes the engine. -/
theorem press_snd_of_ne (g : Simon) (b : ℤ)
    (h : g.state ≠ gameState.playerSequence) : (g.press b).2 = g := by
  unfold Simon.press
  by_cases h1 : g.state = gameState.powerOn ∨ g.state = gameState.playerSequence
  · simp [h1, h]
    split <;> rfl
  · simp [h1]

/-- `press` in the `playerSequence` state, with the post-increment index
`pressN - 1` rewritten to the pre-state's `pressN`. -/
theorem press_player_eq (g : Simon) (b : ℤ)
    (h : g.state = gameState.playerSequence) :
    g.press b =
      match g.sequence.get? g.pressN with
      | some v =>
          if b ≠ v then
            (true, ({ g with pressN := 0 }).setGS gameState.mistake)
          else if g.pressN + 1 = g.sequence.length then
            (true, ({ g with pressN := g.pressN + 1 }).setGS gameState.allCorrect)
          else
            (true, { g with pressN := g.pressN + 1 })
      | none => (true, ({ g with pressN := 0 }).setGS gameState.mistake) := by
  simp [Simon.press, h, gameState.playerSequence, gameState.powerOn]

/-- A press never changes the sequence. -/
theorem press_sequence (g : Simon) (b : ℤ) :
    (g.press b).2.sequence = g.sequence := by
  by_cases h : g.state = gameState.playerSequence
  · rw [press_player_eq g b h]
    cases g.sequence.get? g.pressN with
    | none => simp [Simon.setGS]
    | some v =>
        dsimp only
        split
        · simp [Simon.setGS]
        · split <;> simp [Simon.setGS]
  · rw [press_snd_of_ne g b h]

/-- A press never changes the round counter. -/
theorem press_round (g : Simon) (b : ℤ) :
    (g.press b).2.round = g.round := by
  by_cases h : g.state = gameState.playerSequence
  · rw [press_player_eq g b h]
    cases g.sequence.get? g.pressN with
    | none => simp [Simon.setGS]
    | some v =>
        dsimp only
        split
        · simp [Simon.setGS]
        · split <;> simp [Simon.setGS]
  · rw [press_snd_of_ne g b h]

/-- After any press the press counter is at most the sequence length,
provided it was so before. -/
theorem press_pressN_le (g : Simon) (b : ℤ)
    (h : g.pressN ≤ g.sequence.length) :
    (g.press b).2.pressN ≤ (g.press b).2.sequence.length := by
  by_cases hp : g.state = gameState.playerSequence
  · rw [press_player_eq g b hp]
    cases hget : g.sequence.get? g.pressN with
    | none => simp [Simon.setGS]
    | some v =>
        have hlt : g.pressN < g.sequence.length :=
          (List.get?_eq_some.mp hget).1
        by_cases hbv : b = v
        · simp only [hbv, ne_eq, not_true_eq_false, if_false, ite_not]
          split <;> simp [Simon.setGS] <;> omega
        · simp [hbv, Simon.setGS]
  · rw [press_snd_of_ne g b hp]
    exact h

/-! ## Claim theorems -/

/-- C3: `press(i)` returns accepted exactly when the state is `powerOn`
or `playerSequence`; whenever the state is not `playerSequence`
(the accepted `powerOn` case included), the call leaves the whole
engine — state, round, sequence and press counter — unchanged. -/
theorem press_accepted_iff (g : Simon) (b : ℤ) :
    ((g.press b).1 = true ↔
      g.state = gameState.powerOn ∨ g.state = gameState.playerSequence) ∧
    (g.state ≠ gameState.playerSequence → (g.press b).2 = g) := by
  refine ⟨?_, fun h => press_snd_of_ne g b h⟩
  by_cases h1 : g.state = gameState.powerOn ∨ g.state = gameState.playerSequence
  · simp only [h1, iff_true]
    rcases h1 with h1 | h1
    · have hne : g.state ≠ gameState.playerSequence := by
        rw [h1]; decide
      unfold Simon.press
      simp [h1, hne, gameState.powerOn, gameState.playerSequence]
    · rw [press_player_eq g b h1]
      cases g.sequence.get? g.pressN with
      | none => rfl
      | some v =>
          dsimp only
          split
          · rfl
          · split <;> rfl
  · simp only [h1, iff_false]
    unfold Simon.press
    simp [h1]

/-- C6: `togglePower()` from `powerOff` moves to `powerOn` and resets
sequence, round and press counter while keeping the strict flag;
from any other state it moves to `powerOff` and clears the strict flag
while keeping round, sequence and press counter. -/
theorem togglePower_spec (g : Simon) :
    (g.state = gameState.powerOff →
        g.togglePower.state = gameState.powerOn ∧
        g.togglePower.sequence = [] ∧
        g.togglePower.round = 0 ∧
        g.togglePower.pressN = 0 ∧
        g.togglePower.strict = g.strict) ∧
    (g.state ≠ gameState.powerOff →
        g.togglePower.state = gameState.powerOff ∧
        g.togglePower.strict = false ∧
        g.togglePower.round = g.round ∧
        g.togglePower.sequence = g.sequence ∧
        g.togglePower.pressN = g.pressN) := by
  constructor <;> intro h
  · rw [Simon.togglePower, if_pos h]
    simp [Simon.setGS, Simon.reset, gameState.setState,
      gameState.powerOn, gameState.win]
  · rw [Simon.togglePower, if_neg h]
    simp [Simon.setGS, gameState.setState,
      gameState.powerOff, gameState.win]

/-- C8: `setState(n)` silently ignores any `n` outside the state-code
range `0..8` and otherwise sets the state to `n`, touching nothing
else. -/
theorem setState_spec (g : Simon) (n : ℤ) :
    ((n < 0 ∨ gameState.win < n) → g.setState n = g) ∧
    (0 ≤ n → n ≤ gameState.win →
        (g.setState n).state = n ∧
        (g.setState n).round = g.round ∧
        (g.setState n).sequence = g.sequence ∧
        (g.setState n).pressN = g.pressN ∧
        (g.setState n).strict = g.strict) := by
  constructor
  · intro h
    have hc : ¬ (0 ≤ n ∧ n ≤ gameState.win) := by
      rcases h with h | h <;> omega
    simp [Simon.setState, Simon.setGS, gameState.setState, hc]
  · intro h0 h8
    simp [Simon.setState, Simon.setGS, gameState.setState, h0, h8]

/-- C10: `start()` applies no power-state guard: from any state at all
it yields `comDemo` (never `win`) with round 1, a one-element sequence
and press counter 0. -/
theorem start_spec (g : Simon) (r : ℚ) :
    (g.start r).state = gameState.comDemo ∧
    (g.start r).state ≠ gameState.win ∧
    (g.start r).round = 1 ∧
    (g.start r).sequence.length = 1 ∧
    (g.start r).pressN = 0 := by
  have h : (g.reset).round + 1 ≤ MAXROUND := by
    simp [Simon.reset, MAXROUND]
  rw [Simon.start, nextRound_low _ r h]
  simp [Simon.reset, gameState.comDemo, gameState.win]

/-- C2: `nextRound()` always zeroes the press counter; past the round
limit it moves to `win` and leaves round and sequence unchanged;
otherwise it increments the round by one, appends exactly one signal and
moves to `comDemo`.  No other operation appends to the sequence: `press`,
`toggleStrict` and `setState` leave it unchanged, `togglePower` leaves
it unchanged or clears it, and `start` only appends through the
`nextRound` call it ends with, after clearing the sequence. -/
theorem nextRound_spec (g : Simon) (r : ℚ) :
    (g.nextRound r).pressN = 0 ∧
    (MAXROUND < g.round + 1 →
        (g.nextRound r).state = gameState.win ∧
        (g.nextRound r).round = g.round ∧
        (g.nextRound r).sequence = g.sequence) ∧
    (g.round + 1 ≤ MAXROUND →
        (g.nextRound r).round = g.round + 1 ∧
        (g.nextRound r).sequence = g.sequence ++ [signalOf r] ∧
        (g.nextRound r).state = gameState.comDemo) ∧
    (∀ b : ℤ, (g.press b).2.sequence = g.sequence) ∧
    g.toggleStrict.sequence = g.sequence ∧
    (∀ n : ℤ, (g.setState n).sequence = g.sequence) ∧
    (g.togglePower.sequence = g.sequence ∨ g.togglePower.sequence = []) ∧
    g.start r = (g.reset).nextRound r ∧
    g.reset.sequence = [] := by
  refine ⟨?_, fun h => ?_, fun h => ?_, fun b => press_sequence g b, rfl,
    fun n => rfl, ?_, rfl, rfl⟩
  · by_cases h : MAXROUND < g.round + 1
    · rw [nextRound_high g r h]
    · rw [nextRound_low g r (Nat.not_lt.mp h)]
  · rw [nextRound_high g r h]
    simp
  · rw [nextRound_low g r h]
    simp
  · unfold Simon.togglePower
    split
    · right; rfl
    · left; rfl

/-- C1: a press in the `playerSequence` state increments the press
counter and compares the signal against the sequence element indexed by
the post-increment counter minus one (i.e. the pre-state counter): on a
mismatch — an out-of-range index counting as a mismatch, as the JS
`undefined` comparison does — the counter resets to 0 and the state
becomes `mistake`; on a match the counter keeps its incremented value
and the state becomes `allCorrect` when the counter reached the
sequence length, and stays `playerSequence` when it is still short of
it.  The press is accepted in every case. -/
theorem press_playerSequence_spec (g : Simon) (btnI : ℤ)
    (h : g.state = gameState.playerSequence) :
    (g.press btnI).1 = true ∧
    (g.sequence.get? g.pressN ≠ some btnI →
        (g.press btnI).2.pressN = 0 ∧
        (g.press btnI).2.state = gameState.mistake) ∧
    (g.sequence.get? g.pressN = some btnI →
        (g.press btnI).2.pressN = g.pressN + 1 ∧
        (g.pressN + 1 = g.sequence.length →
            (g.press btnI).2.state = gameState.allCorrect) ∧
        (g.pressN + 1 < g.sequence.length →
            (g.press btnI).2.state = gameState.playerSequence)) := by
  rw [press_player_eq g btnI h]
  cases hget : g.sequence.get? g.pressN with
  | none =>
      refine ⟨rfl, fun _ => ⟨rfl, ?_⟩, fun hc => Option.noConfusion hc⟩
      simp [Simon.setGS, gameState.setState, gameState.mistake, gameState.win]
  | some v =>
      dsimp only
      by_cases hbv : btnI = v
      · subst hbv
        rw [if_neg (fun hc => hc rfl)]
        by_cases hlen : g.pressN + 1 = g.sequence.length
        · rw [if_pos hlen]
          refine ⟨rfl, fun hc => absurd rfl hc, fun _ => ⟨rfl, fun _ => ?_,
            fun hlt => absurd hlen (by omega)⟩⟩
          simp [Simon.setGS, gameState.setState, gameState.allCorrect,
            gameState.win]
        · rw [if_neg hlen]
          exact ⟨rfl, fun hc => absurd rfl hc,
            fun _ => ⟨rfl, fun he => absurd he hlen, fun _ => h⟩⟩
      · rw [if_pos (fun he => hbv he)]
        refine ⟨rfl, fun _ => ⟨rfl, ?_⟩,
          fun he => absurd (Option.some.inj he).symm hbv⟩
        simp [Simon.setGS, gameState.setState, gameState.mistake, gameState.win]

/-- Witness for C1: with sequence `[2]`, press counter 0 and state
`playerSequence`, pressing button 2 is accepted, matches the element at
index 0, and moves the engine to `allCorrect`. -/
theorem press_playerSequence_witness :
    (Simon.mk gameState.playerSequence 1 0 false [2]).state =
        gameState.playerSequence ∧
    (((Simon.mk gameState.playerSequence 1 0 false [2]).press 2).1 = true ∧
      ((Simon.mk gameState.playerSequence 1 0 false [2]).sequence.get? 0 ≠
          some 2 →
        ((Simon.mk gameState.playerSequence 1 0 false [2]).press 2).2.pressN
            = 0 ∧
        ((Simon.mk gameState.playerSequence 1 0 false [2]).press 2).2.state
            = gameState.mistake) ∧
      ((Simon.mk gameState.playerSequence 1 0 false [2]).sequence.get? 0 =
          some 2 →
        ((Simon.mk gameState.playerSequence 1 0 false [2]).press 2).2.pressN
            = 0 + 1 ∧
        (0 + 1 = (Simon.mk gameState.playerSequence 1 0 false [2]).sequence.length →
            ((Simon.mk gameState.playerSequence 1 0 false [2]).press 2).2.state
              = gameState.allCorrect) ∧
        (0 + 1 < (Simon.mk gameState.playerSequence 1 0 false [2]).sequence.length →
            ((Simon.mk gameState.playerSequence 1 0 false [2]).press 2).2.state
              = gameState.playerSequence))) :=
  ⟨rfl, press_playerSequence_spec (Simon.mk gameState.playerSequence 1 0 false [2]) 2 rfl⟩

/-! ## Trace invariants -/

/-- One step preserves `sequence.length = round`. -/
theorem step_len_round (g : Simon) (op : Op)
    (h : g.sequence.length = g.round) :
    (g.step op).sequence.length = (g.step op).round := by
  cases op with
  | start r =>
      show ((g.reset).nextRound r).sequence.length = ((g.reset).nextRound r).round
      rw [nextRound_low (g.reset) r (by simp [Simon.reset, MAXROUND])]
      simp [Simon.reset]
  | nextRound r =>
      show (g.nextRound r).sequence.length = (g.nextRound r).round
      by_cases hr : MAXROUND < g.round + 1
      · rw [nextRound_high g r hr]
        exact h
      · rw [nextRound_low g r (Nat.not_lt.mp hr)]
        simp [h]
  | press b =>
      show ((g.press b).2).sequence.length = ((g.press b).2).round
      rw [press_sequence, press_round]
      exact h
  | togglePower =>
      show g.togglePower.sequence.length = g.togglePower.round
      unfold Simon.togglePower
      split
      · simp [Simon.reset]
      · exact h
  | toggleStrict =>
      exact h
  | setState n =>
      exact h

/-- C4: along every run of public calls from the initial engine,
`sequence.length = round` holds after every call — in particular
immediately after every `nextRound()` and until the next mutating
call. -/
theorem run_len_eq_round (ops : List Op) :
    (Simon.initial.run ops).sequence.length = (Simon.initial.run ops).round := by
  suffices hgen : ∀ (l : List Op) (g : Simon),
      g.sequence.length = g.round → (g.run l).sequence.length = (g.run l).round by
    exact hgen ops Simon.initial rfl
  intro l
  induction l with
  | nil => intro g hg; exact hg
  | cons op l ih =>
      intro g hg
      exact ih (g.step op) (step_len_round g op hg)

/-- One step preserves `pressN ≤ sequence.length`. -/
theorem step_pressN_le (g : Simon) (op : Op)
    (h : g.pressN ≤ g.sequence.length) :
    (g.step op).pressN ≤ (g.step op).sequence.length := by
  cases op with
  | start r =>
      show ((g.reset).nextRound r).pressN ≤ ((g.reset).nextRound r).sequence.length
      rw [nextRound_low (g.reset) r (by simp [Simon.reset, MAXROUND])]
      simp
  | nextRound r =>
      show (g.nextRound r).pressN ≤ (g.nextRound r).sequence.length
      by_cases hr : MAXROUND < g.round + 1
      · rw [nextRound_high g r hr]
        simp
      · rw [nextRound_low g r (Nat.not_lt.mp hr)]
        simp
  | press b =>
      exact press_pressN_le g b h
  | togglePower =>
      show g.togglePower.pressN ≤ g.togglePower.sequence.length
      unfold Simon.togglePower
      split
      · simp [Simon.reset]
      · exact h
  | toggleStrict =>
      exact h
  | setState n =>
      exact h

/-- C7: along every run of public calls from the initial engine, the
press counter never exceeds the sequence length after any call (it is a
`ℕ`, so `0 ≤ pressN` holds by type). -/
theorem run_pressN_le (ops : List Op) :
    (Simon.initial.run ops).pressN ≤ (Simon.initial.run ops).sequence.length := by
  suffices hgen : ∀ (l : List Op) (g : Simon),
      g.pressN ≤ g.sequence.length → (g.run l).pressN ≤ (g.run l).sequence.length by
    exact hgen ops Simon.initial (Nat.le_refl 0)
  intro l
  induction l with
  | nil => intro g hg; exact hg
  | cons op l ih =>
      intro g hg
      exact ih (g.step op) (step_pressN_le g op hg)

/-! ## The winning run -/

/-- `nextRound` never pushes the round counter past `MAXROUND`. -/
theorem nextRound_round_le (g : Simon) (r : ℚ) (h : g.round ≤ MAXROUND) :
    (g.nextRound r).round ≤ MAXROUND := by
  by_cases hr : MAXROUND < g.round + 1
  · rw [nextRound_high g r hr]
    exact h
  · rw [nextRound_low g r (Nat.not_lt.mp hr)]
    exact Nat.not_lt.mp hr

/-- Iterating `nextRound` until the round budget is exactly exhausted
lands in `win` with the round counter at `MAXROUND`. -/
theorem runNR_win (rs : List ℚ) (g : Simon)
    (h : g.round + rs.length = MAXROUND + 1) (hr : g.round ≤ MAXROUND) :
    (g.runNR rs).state = gameState.win ∧ (g.runNR rs).round = MAXROUND := by
  induction rs generalizing g with
  | nil =>
      exfalso
      simp at h
      omega
  | cons r rs ih =>
      by_cases hc : MAXROUND < g.round + 1
      · have hr20 : g.round = MAXROUND := by omega
        have hrs : rs.length = 0 := by
          simp at h
          omega
        have hnil : rs = [] := List.length_eq_zero.mp hrs
        subst hnil
        show ((g.nextRound r).runNR []).state = gameState.win ∧
          ((g.nextRound r).runNR []).round = MAXROUND
        rw [nextRound_high g r hc]
        exact ⟨rfl, hr20⟩
      · have hc' : g.round + 1 ≤ MAXROUND := Nat.not_lt.mp hc
        show ((g.nextRound r).runNR rs).state = gameState.win ∧
          ((g.nextRound r).runNR rs).round = MAXROUND
        have hlen : (g.nextRound r).round + rs.length = MAXROUND + 1 := by
          rw [nextRound_low g r hc']
          simp at h ⊢
          omega
        have hle : (g.nextRound r).round ≤ MAXROUND := by
          rw [nextRound_low g r hc']
          exact hc'
        exact ih (g.nextRound r) hlen hle

/-- Every state visited while iterating `nextRound` keeps the round
counter within `MAXROUND`, provided it started there. -/
theorem statesNR_round_le (rs : List ℚ) (g : Simon) (h : g.round ≤ MAXROUND) :
    ∀ x ∈ g.statesNR rs, x.round ≤ MAXROUND := by
  induction rs generalizing g with
  | nil =>
      intro x hx
      simp [Simon.statesNR] at hx
      rw [hx]
      exact h
  | cons r rs ih =>
      intro x hx
      simp only [Simon.statesNR, List.mem_cons] at hx
      rcases hx with hx | hx
      · rw [hx]
        exact h
      · exact ih (g.nextRound r) (nextRound_round_le g r h) x hx

/-- C5: the engine is created in `powerOff`; from it, one `start()`
followed by twenty `nextRound()` calls ends in `win` with round 20, and
the round counter stays within `MAXROUND = 20` at every visited state
of the run. -/
theorem start_then_twenty_rounds (r0 : ℚ) (rs : List ℚ)
    (h : rs.length = 20) :
    Simon.initial.state = gameState.powerOff ∧
    ((Simon.initial.start r0).runNR rs).state = gameState.win ∧
    ((Simon.initial.start r0).runNR rs).round = 20 ∧
    ∀ x ∈ (Simon.initial.start r0).statesNR rs, x.round ≤ MAXROUND := by
  have hstart : (Simon.initial.start r0).round = 1 := by
    rw [Simon.start, nextRound_low _ r0 (by simp [Simon.reset, MAXROUND])]
    rfl
  have hwin := runNR_win rs (Simon.initial.start r0)
    (by rw [hstart, h]; decide) (by rw [hstart]; simp [MAXROUND])
  exact ⟨rfl, hwin.1, hwin.2, statesNR_round_le rs _ (by rw [hstart]; simp [MAXROUND])⟩

/-- Witness for C5: the winning run with every random draw equal to 0. -/
theorem start_then_twenty_rounds_witness :
    (List.replicate 20 (0 : ℚ)).length = 20 ∧
    (Simon.initial.state = gameState.powerOff ∧
      ((Simon.initial.start 0).runNR (List.replicate 20 (0 : ℚ))).state =
          gameState.win ∧
      ((Simon.initial.start 0).runNR (List.replicate 20 (0 : ℚ))).round = 20 ∧
      ∀ x ∈ (Simon.initial.start 0).statesNR (List.replicate 20 (0 : ℚ)),
          x.round ≤ MAXROUND) :=
  ⟨List.length_replicate 20 0,
    start_then_twenty_rounds 0 (List.replicate 20 (0 : ℚ))
      (List.length_replicate 20 0)⟩

/-! ## The random draw is not uniform -/

/-- C9 evidence: under a random source `r` uniform on `[0,1)`, the map
`r ↦ Math.floor(r * 3.99)` used by `nextRound` (source line 106) sends
`[0, 100/399)`, `[100/399, 200/399)` and `[200/399, 300/399)` to the
signals 0, 1 and 2, each an interval of width `100/399`, but sends only
`[300/399, 1)` — width `99/399` — to the signal 3.  The four preimages
are therefore not of equal probability, contradicting the uniform
randomness policy of the specification. -/
theorem signalOf_not_uniform :
    {r : ℚ | 0 ≤ r ∧ r < 1 ∧ signalOf r = 0} =
      {r : ℚ | 0 ≤ r ∧ r < 100 / 399} ∧
    {r : ℚ | 0 ≤ r ∧ r < 1 ∧ signalOf r = 1} =
      {r : ℚ | 100 / 399 ≤ r ∧ r < 200 / 399} ∧
    {r : ℚ | 0 ≤ r ∧ r < 1 ∧ signalOf r = 2} =
      {r : ℚ | 200 / 399 ≤ r ∧ r < 300 / 399} ∧
    {r : ℚ | 0 ≤ r ∧ r < 1 ∧ signalOf r = 3} =
      {r : ℚ | 300 / 399 ≤ r ∧ r < 1} ∧
    ((100 / 399 : ℚ) - 0 = 200 / 399 - 100 / 399) ∧
    ((100 / 399 : ℚ) - 0 ≠ 1 - 300 / 399) := by
  refine ⟨?_, ?_, ?_, ?_, by norm_num, by norm_num⟩
  · ext r
    simp only [Set.mem_setOf_eq, signalOf_eq_floor]
    rw [Int.floor_eq_iff]
    push_cast
    constructor
    · rintro ⟨h0, h1, hf⟩
      exact ⟨h0, by linarith [hf.2]⟩
    · rintro ⟨h0, h1⟩
      refine ⟨h0, by linarith, by linarith, by linarith⟩
  · ext r
    simp only [Set.mem_setOf_eq, signalOf_eq_floor]
    rw [Int.floor_eq_iff]
    push_cast
    constructor
    · rintro ⟨h0, h1, hf⟩
      exact ⟨by linarith [hf.1], by linarith [hf.2]⟩
    · rintro ⟨h0, h1⟩
      refine ⟨by linarith, by linarith, by linarith, by linarith⟩
  · ext r
    simp only [Set.mem_setOf_eq, signalOf_eq_floor]
    rw [Int.floor_eq_iff]
    push_cast
    constructor
    · rintro ⟨h0, h1, hf⟩
      exact ⟨by linarith [hf.1], by linarith [hf.2]⟩
    · rintro ⟨h0, h1⟩
      refine ⟨by linarith, by linarith, by linarith, by linarith⟩
  · ext r
    simp only [Set.mem_setOf_eq, signalOf_eq_floor]
    rw [Int.floor_eq_iff]
    push_cast
    constructor
    · rintro ⟨h0, h1, hf⟩
      exact ⟨by linarith [hf.1], h1⟩
    · rintro ⟨h0, h1⟩
      refine ⟨by linarith, h1, by linarith, by linarith⟩
